import Mathlib

/-!
# Verification of the whisper-village transcript-cleanup core

Shallow embedding of the data/label plumbing of the whisper-village
repository: the bracket-annotation parsers used to derive training labels
(`ml/training/train_filler.py`, `ml/training/train_repetition.py`), the
word/subword label aligner (`tokenize_and_align_labels`,
`BaseModel._get_word_labels`), the repetition-vs-repair overlap heuristic
(`ml/training/train_repetition_only.py`), the tagger stages and pipeline
(`ml/pipeline/models.py`, `ml/pipeline/pipeline.py`) and the list
post-processing (`ListFormatter._fix_newlines`, `server.convert_list_style`).

Text is modelled as `List Char`.  Python `str.split()` (split on whitespace
runs) is `splitWs`, `' '.join` is `joinSpace`, `str.strip()`-emptiness is
`isBlank`.  Python's `\s` class and `str.split` whitespace are modelled by
`Char.isWhitespace` (ASCII whitespace; the corpora are ASCII).
-/

namespace WV

/-- Python `str.split()`: maximal runs of non-whitespace characters.
(Written with structural recursion so that concrete instances evaluate;
the `takeWhile`/`dropWhile` characterisation is proved just below.) -/
def splitWs : List Char → List (List Char)
  | [] => []
  | c :: rest =>
    let tail := splitWs rest
    if c.isWhitespace then tail
    else
      match rest with
      | [] => [[c]]
      | d :: _ =>
        if d.isWhitespace then [c] :: tail
        else
          match tail with
          | [] => [[c]]
          | w :: ws => (c :: w) :: ws

theorem splitWs_nil : splitWs [] = [] := rfl

theorem splitWs_cons_ws (c : Char) (rest : List Char) (h : c.isWhitespace = true) :
    splitWs (c :: rest) = splitWs rest := by
  simp [splitWs, h]

theorem splitWs_cons_word' : ∀ (rest : List Char) (c : Char), c.isWhitespace = false →
    splitWs (c :: rest) = (c :: rest.takeWhile (fun d => !d.isWhitespace)) ::
      splitWs (rest.dropWhile (fun d => !d.isWhitespace)) := by
  intro rest
  induction rest with
  | nil => intro c hc; simp [splitWs, hc]
  | cons d rest' ih =>
    intro c hc
    by_cases hd : d.isWhitespace
    · simp [splitWs, hc, hd, List.takeWhile_cons, List.dropWhile_cons]
    · have hd' : d.isWhitespace = false := by simpa using hd
      have hrec := ih d hd'
      conv_lhs => rw [splitWs]
      simp only [hc, hd', Bool.false_eq_true, if_false]
      rw [hrec]
      simp [List.takeWhile_cons, List.dropWhile_cons, hd']

theorem splitWs_cons_word (c : Char) (rest : List Char) (h : c.isWhitespace = false) :
    splitWs (c :: rest) = (c :: rest.takeWhile (fun d => !d.isWhitespace)) ::
      splitWs (rest.dropWhile (fun d => !d.isWhitespace)) :=
  splitWs_cons_word' rest c h

/-- Python `' '.join(words)`. -/
def joinSpace : List (List Char) → List Char
  | [] => []
  | [w] => w
  | w :: rest => w ++ ' ' :: joinSpace rest

/-- Python `not text.strip()`: true iff every character is whitespace. -/
def isBlank (s : List Char) : Bool := s.all (·.isWhitespace)

/-- A word produced by `splitWs`: nonempty and free of whitespace. -/
def goodWord (w : List Char) : Prop := w ≠ [] ∧ ∀ c ∈ w, c.isWhitespace = false

theorem splitWs_goodWord : ∀ (s : List Char), ∀ w ∈ splitWs s, goodWord w
  | [] => by simp [splitWs_nil]
  | c :: rest => by
    by_cases hc : c.isWhitespace
    · rw [splitWs_cons_ws c rest hc]
      exact splitWs_goodWord rest
    · rw [splitWs_cons_word c rest (by simpa using hc)]
      intro w hw
      rcases List.mem_cons.mp hw with h | h
      · subst h
        refine ⟨by simp, ?_⟩
        intro d hd
        rcases List.mem_cons.mp hd with h | h
        · subst h; simpa using hc
        · have := List.mem_takeWhile_imp h
          simpa using this
      · exact splitWs_goodWord (rest.dropWhile (fun d => !d.isWhitespace)) w h
termination_by s => s.length
decreasing_by
  · simp only [List.length_cons]; omega
  · have : (rest.dropWhile (fun d => !d.isWhitespace)).length ≤ rest.length :=
      (List.dropWhile_sublist _).length_le
    simp only [List.length_cons]; omega

theorem splitWs_append_ws (w rest : List Char) (hw : goodWord w)
    (hrest : rest = [] ∨ ∃ c rest', rest = c :: rest' ∧ c.isWhitespace = true) :
    splitWs (w ++ rest) = w :: splitWs rest := by
  obtain ⟨hne, hchars⟩ := hw
  obtain ⟨c, t, rfl⟩ := List.exists_cons_of_ne_nil hne
  have hc : c.isWhitespace = false := hchars c (List.mem_cons_self c t)
  have ht : ∀ d ∈ t, (fun d => !d.isWhitespace) d = true := by
    intro d hd
    simp [hchars d (List.mem_cons_of_mem c hd)]
  have hrtake : rest.takeWhile (fun d => !d.isWhitespace) = [] := by
    rcases hrest with rfl | ⟨e, rest', rfl, he⟩
    · simp
    · simp [List.takeWhile_cons, he]
  have hrdrop : rest.dropWhile (fun d => !d.isWhitespace) = rest := by
    rcases hrest with rfl | ⟨e, rest', rfl, he⟩
    · simp
    · simp [List.dropWhile_cons, he]
  rw [List.cons_append, splitWs_cons_word c (t ++ rest) hc,
    List.takeWhile_append_of_pos ht, List.dropWhile_append_of_pos ht,
    hrtake, hrdrop, List.append_nil]

/-- `splitWs` recovers the word list from a single-space join of good words. -/
theorem splitWs_joinSpace : ∀ ws : List (List Char), (∀ w ∈ ws, goodWord w) →
    splitWs (joinSpace ws) = ws := by
  intro ws
  induction ws with
  | nil => intro _; simp [joinSpace, splitWs_nil]
  | cons w rest ih =>
    intro hgood
    cases rest with
    | nil =>
      have hw := hgood w (List.mem_cons_self w [])
      have := splitWs_append_ws w [] hw (Or.inl rfl)
      simpa [joinSpace, splitWs_nil] using this
    | cons w2 rest2 =>
      have hw := hgood w (List.mem_cons_self w _)
      have hstep : splitWs (w ++ ' ' :: joinSpace (w2 :: rest2)) =
          w :: splitWs (' ' :: joinSpace (w2 :: rest2)) :=
        splitWs_append_ws w (' ' :: joinSpace (w2 :: rest2)) hw
          (Or.inr ⟨' ', joinSpace (w2 :: rest2), rfl, by decide⟩)
      have hrest : splitWs (' ' :: joinSpace (w2 :: rest2)) = w2 :: rest2 := by
        rw [splitWs_cons_ws _ _ (by decide)]
        exact ih (fun u hu => hgood u (List.mem_cons_of_mem w hu))
      rw [joinSpace, hstep, hrest]
      simp

/-! ## Tagger stages (`ml/pipeline/models.py`)

The external labelling capability (`BaseModel._get_word_labels`) returns a
Python dict from word index to label string; it is modelled as a partial
map `Nat → Option String` supplied as a parameter. -/

/-- `word_labels.get(i, "O")`. -/
def resolvedLabel (wl : Nat → Option String) (i : Nat) : String := (wl i).getD "O"

/-- Python substring test `pat in hay` (on the character lists). -/
def strContains (hay pat : List Char) : Bool :=
  (List.range (hay.length + 1)).any (fun i => pat.isPrefixOf (hay.drop i))

theorem strContains_iff (hay pat : List Char) :
    strContains hay pat = true ↔ pat <:+: hay := by
  unfold strContains
  rw [List.any_eq_true]
  constructor
  · rintro ⟨i, _, hpre⟩
    rw [List.isPrefixOf_iff_prefix] at hpre
    obtain ⟨t, ht⟩ := hpre
    refine ⟨hay.take i, t, ?_⟩
    rw [List.append_assoc, ht, List.take_append_drop]
  · rintro ⟨s, t, rfl⟩
    refine ⟨s.length, ?_, ?_⟩
    · rw [List.mem_range]
      simp only [List.append_assoc, List.length_append]
      omega
    · rw [List.isPrefixOf_iff_prefix, List.append_assoc, List.drop_left]
      exact ⟨t, rfl⟩

/-- `RepairRemover._should_remove`: `"REPAIR" in label`. -/
def shouldRemove (label : String) : Bool := strContains label.data "REPAIR".data

/-- `BaseModel.process`: keep the words whose resolved label is `"O"`,
rejoin with single spaces; blank input is returned unchanged. -/
def baseProcess (wl : Nat → Option String) (text : List Char) : List Char :=
  if isBlank text then text
  else joinSpace ((((splitWs text).enum).filter
    (fun p => resolvedLabel wl p.1 == "O")).map (·.2))

/-- `RepairRemover.process`: keep the words whose resolved label does not
contain `"REPAIR"`, rejoin with single spaces; blank input unchanged. -/
def repairProcess (wl : Nat → Option String) (text : List Char) : List Char :=
  if isBlank text then text
  else joinSpace ((((splitWs text).enum).filter
    (fun p => !shouldRemove (resolvedLabel wl p.1))).map (·.2))

/-- Result of `BaseModel.process_with_details`. -/
structure Details where
  output : List Char
  removed : List (List Char)
  labels : List (List Char × String)
deriving DecidableEq

/-- `BaseModel.process_with_details`, inherited unchanged by every stage
(including `RepairRemover`): kept/removed are split by `label == "O"`.
The Python `labels` dict keys are the word strings (duplicate words
collapse to the last entry in Python); the association list here keeps
every entry in order. -/
def processDetails (wl : Nat → Option String) (text : List Char) : Details :=
  if isBlank text then ⟨text, [], []⟩
  else
    let words := splitWs text
    { output := joinSpace (((words.enum).filter
        (fun p => resolvedLabel wl p.1 == "O")).map (·.2))
      removed := ((words.enum).filter
        (fun p => !(resolvedLabel wl p.1 == "O"))).map (·.2)
      labels := (words.enum).map (fun p => (p.2, resolvedLabel wl p.1)) }

/-- Words selected from the enumerated split are words of the split. -/
theorem goodWord_of_filter_enum (text : List Char) (P : Nat × List Char → Bool) :
    ∀ w ∈ (((splitWs text).enum).filter P).map (·.2), goodWord w := by
  intro w hw
  obtain ⟨p, hp, rfl⟩ := List.mem_map.mp hw
  have hp' : p ∈ (splitWs text).enum := List.mem_of_mem_filter hp
  exact splitWs_goodWord text p.2 (List.snd_mem_of_mem_enum hp')

/-- Splitting the rejoined kept words recovers exactly the kept word list. -/
theorem splitWs_kept (text : List Char) (P : Nat × List Char → Bool) :
    splitWs (joinSpace ((((splitWs text).enum).filter P).map (·.2))) =
      (((splitWs text).enum).filter P).map (·.2) :=
  splitWs_joinSpace _ (goodWord_of_filter_enum text P)

/-- A blank text splits into no words. -/
theorem splitWs_eq_nil_of_blank : ∀ s : List Char, isBlank s = true → splitWs s = []
  | [] => fun _ => rfl
  | c :: rest => fun h => by
    rw [isBlank, List.all_cons, Bool.and_eq_true] at h
    rw [splitWs_cons_ws c rest h.1]
    exact splitWs_eq_nil_of_blank rest h.2

/-- Indices in the enumerated word list are in range. -/
theorem fst_lt_of_mem_enum {l : List (List Char)} {p : Nat × List Char}
    (hp : p ∈ l.enum) : p.1 < l.length := by
  have := List.mem_enum_iff_getElem?.mp hp
  exact (List.getElem?_eq_some.mp this).1

/-- The kept word list is a sublist of the split of the input. -/
theorem filter_enum_sublist (text : List Char) (P : Nat × List Char → Bool) :
    List.Sublist ((((splitWs text).enum).filter P).map (·.2)) (splitWs text) := by
  have h1 : List.Sublist (((splitWs text).enum).filter P) ((splitWs text).enum) :=
    List.filter_sublist _
  have h2 := h1.map (·.2)
  have h3 : ((splitWs text).enum).map (·.2) = splitWs text :=
    List.enum_map_snd (splitWs text)
  simpa [h3] using h2

/-! ## Claims C5, C6, C7, C10: tagger-stage behaviour -/

/-- C5: the claim as stated is false.  The baseline predicate removes the
label `"B-REP"` (it is not `"O"`), but `RepairRemover._should_remove`
keeps it (`"REPAIR"` is not a substring of `"B-REP"`), so the repair
variant does not remove everything the baseline removes, and it keeps a
word whose tag is not `"O"`. -/
theorem C5_counterexample :
    ("B-REP" : String) ≠ "O" ∧ shouldRemove "B-REP" = false ∧
    repairProcess (fun _ => some "B-REP") "hi".data = "hi".data ∧
    baseProcess (fun _ => some "B-REP") "hi".data = [] := by
  refine ⟨by decide, by decide, by decide, by decide⟩

/-- C5 (amended): the repair-variant removal predicate removes a label iff
it contains the substring `"REPAIR"`; on the repair model's own label
vocabulary `{O, B-REPAIR, I-REPAIR}` this coincides with the baseline
predicate "remove iff the tag is not `O`". -/
theorem C5_main (label : String) :
    (shouldRemove label = true ↔ "REPAIR".data <:+: label.data) ∧
    (label ∈ (["O", "B-REPAIR", "I-REPAIR"] : List String) →
      shouldRemove label = !(label == "O")) := by
  constructor
  · exact strContains_iff label.data "REPAIR".data
  · intro h
    rcases List.mem_cons.mp h with rfl | h
    · decide
    rcases List.mem_cons.mp h with rfl | h
    · decide
    rcases List.mem_cons.mp h with rfl | h
    · decide
    · simp at h

/-- C5 witness: the amended claim applied to the label `"B-REPAIR"`. -/
theorem C5_witness : shouldRemove "B-REPAIR" = !("B-REPAIR" == "O") :=
  (C5_main "B-REPAIR").2 (by decide)

/-- C7: the claim as stated is false.  On `"a  b"` (double space) with
every word resolving to label `"O"`, `BaseModel.process` rejoins with
single spaces and returns `"a b"`, not the input unchanged. -/
theorem C7_counterexample :
    resolvedLabel (fun _ => none) 0 = "O" ∧
    resolvedLabel (fun _ => none) 1 = "O" ∧
    baseProcess (fun _ => none) "a  b".data = "a b".data ∧
    "a b".data ≠ "a  b".data := by
  refine ⟨rfl, rfl, by decide, by decide⟩

/-- C7 (amended): when every word's resolved label is `"O"`,
`BaseModel.process` returns the input's words rejoined with single
spaces; blank input is returned unchanged, and the output equals the
input exactly when the input is already single-space normalised. -/
theorem C7_main (wl : Nat → Option String) (text : List Char)
    (hO : ∀ i < (splitWs text).length, resolvedLabel wl i = "O") :
    (isBlank text = true → baseProcess wl text = text) ∧
    (isBlank text = false → baseProcess wl text = joinSpace (splitWs text)) ∧
    (text = joinSpace (splitWs text) → baseProcess wl text = text) := by
  have hfilter : (((splitWs text).enum).filter
      (fun p => resolvedLabel wl p.1 == "O")) = (splitWs text).enum := by
    apply List.filter_eq_self.mpr
    intro p hp
    have := hO p.1 (fst_lt_of_mem_enum hp)
    simp [this]
  refine ⟨?_, ?_, ?_⟩
  · intro hb; rw [baseProcess, if_pos hb]
  · intro hb
    rw [baseProcess, if_neg (by simp [hb]), hfilter, List.enum_map_snd]
  · intro heq
    by_cases hb : isBlank text
    · rw [baseProcess, if_pos hb]
    · rw [baseProcess, if_neg hb, hfilter, List.enum_map_snd, ← heq]

/-- C7 witness: all-`"O"` labelling on the already-normalised text
`"i think"` is returned unchanged. -/
theorem C7_witness :
    baseProcess (fun _ => some "O") "i think".data = "i think".data := by
  have h := C7_main (fun _ => some "O") "i think".data (fun i _ => rfl)
  exact h.2.2 (by decide)

/-- C6: the claim as stated is false.  `RepairRemover` overrides `process`
but inherits `process_with_details`, so on a labelling that resolves a
word to `"B-REP"` the details report it removed while `process` keeps
it. -/
theorem C6_counterexample :
    (processDetails (fun _ => some "B-REP") "oops".data).output = [] ∧
    (processDetails (fun _ => some "B-REP") "oops".data).removed = ["oops".data] ∧
    repairProcess (fun _ => some "B-REP") "oops".data = "oops".data := by
  refine ⟨by decide, by decide, by decide⟩

/-- C6 (amended): `process_with_details` agrees with the baseline
`process` for every labelling, its `removed` list is exactly the
complementary selection of the kept words in original order, and it
agrees with the repair variant's `process` whenever every resolved label
is either `"O"` or contains `"REPAIR"` (as all labels of the repair
model's vocabulary do). -/
theorem C6_main (wl : Nat → Option String) (text : List Char) :
    ((processDetails wl text).output = baseProcess wl text) ∧
    (splitWs (processDetails wl text).output =
      (((splitWs text).enum).filter (fun p => resolvedLabel wl p.1 == "O")).map (·.2)) ∧
    ((processDetails wl text).removed =
      (((splitWs text).enum).filter (fun p => !(resolvedLabel wl p.1 == "O"))).map (·.2)) ∧
    ((∀ i < (splitWs text).length,
        resolvedLabel wl i = "O" ∨ shouldRemove (resolvedLabel wl i) = true) →
      (processDetails wl text).output = repairProcess wl text) := by
  by_cases hb : isBlank text
  · have hsplit := splitWs_eq_nil_of_blank text hb
    rw [processDetails, if_pos hb, baseProcess, if_pos hb, repairProcess, if_pos hb]
    refine ⟨rfl, ?_, ?_, fun _ => rfl⟩
    · simp [hsplit]
    · simp [hsplit]
  · rw [processDetails, if_neg hb, baseProcess, if_neg hb, repairProcess, if_neg hb]
    refine ⟨rfl, ?_, rfl, ?_⟩
    · exact splitWs_kept text _
    · intro hvoc
      have : (((splitWs text).enum).filter (fun p => resolvedLabel wl p.1 == "O")) =
          (((splitWs text).enum).filter
            (fun p => !shouldRemove (resolvedLabel wl p.1))) := by
        apply List.filter_congr
        intro p hp
        rcases hvoc p.1 (fst_lt_of_mem_enum hp) with h | h
        · rw [h]; decide
        · rw [h]
          have : resolvedLabel wl p.1 ≠ "O" := by
            intro hcon
            rw [hcon] at h
            exact absurd h (by decide)
          simp [this]
      simp only [this]

/-- C6 witness: the repair-variant agreement applied to a concrete
labelling drawn from the repair model's vocabulary. -/
theorem C6_witness :
    (processDetails (fun i => if i = 0 then some "B-REPAIR" else none)
      "bad good".data).output =
    repairProcess (fun i => if i = 0 then some "B-REPAIR" else none)
      "bad good".data := by
  have h := C6_main (fun i => if i = 0 then some "B-REPAIR" else none) "bad good".data
  exact h.2.2.2 (by decide)

/-- A pipeline stage as held by `TranscriptPipeline.models`: its labelling
capability and whether it is the `RepairRemover` variant (which overrides
`process` with the `"REPAIR"`-substring predicate). -/
structure Stage where
  wl : Nat → Option String
  isRepair : Bool

/-- Dispatch of `model.process(text)` for a pipeline stage. -/
def runStage (m : Stage) (text : List Char) : List Char :=
  if m.isRepair then repairProcess m.wl text else baseProcess m.wl text

/-- `TranscriptPipeline.process`: thread the text through the stages. -/
def pipelineRun (models : List Stage) (text : List Char) : List Char :=
  models.foldl (fun result m => runStage m result) text

/-- C10: every tagger stage only deletes whole words — the word sequence
of its output is a sublist (order-preserving selection) of the word
sequence of its input — and the pipeline's composition of stages
preserves this invariant. -/
theorem C10_main (wl : Nat → Option String) (models : List Stage)
    (text : List Char) :
    List.Sublist (splitWs (baseProcess wl text)) (splitWs text) ∧
    List.Sublist (splitWs (repairProcess wl text)) (splitWs text) ∧
    List.Sublist (splitWs (pipelineRun models text)) (splitWs text) := by
  have hbase : ∀ (wl' : Nat → Option String) (t : List Char),
      List.Sublist (splitWs (baseProcess wl' t)) (splitWs t) := by
    intro wl' t
    by_cases hb : isBlank t
    · rw [baseProcess, if_pos hb]
    · rw [baseProcess, if_neg hb, splitWs_kept]
      exact filter_enum_sublist t _
  have hrep : ∀ (wl' : Nat → Option String) (t : List Char),
      List.Sublist (splitWs (repairProcess wl' t)) (splitWs t) := by
    intro wl' t
    by_cases hb : isBlank t
    · rw [repairProcess, if_pos hb]
    · rw [repairProcess, if_neg hb, splitWs_kept]
      exact filter_enum_sublist t _
  have hstage : ∀ (m : Stage) (t : List Char),
      List.Sublist (splitWs (runStage m t)) (splitWs t) := by
    intro m t
    rw [runStage]
    by_cases hm : m.isRepair
    · rw [if_pos hm]; exact hrep m.wl t
    · rw [if_neg hm]; exact hbase m.wl t
  refine ⟨hbase wl text, hrep wl text, ?_⟩
  induction models generalizing text with
  | nil => exact List.Sublist.refl _
  | cons m rest ih =>
    rw [pipelineRun, List.foldl_cons]
    exact (ih (runStage m text)).trans (hstage m text)

/-! ## Claim C8: fixed pipeline stage ordering
(`ml/server.py process`, `ml/pipeline/pipeline.py TranscriptPipeline`) -/

/-- `ml/server.py`: `DISFLUENCY_ORDER = ['filler', 'repetition', 'repair']`. -/
def DISFLUENCY_ORDER : List String := ["filler", "repetition", "repair"]

/-- The fixed semantic order of all stages: truecasing first, the
disfluency stages, list structuring last. -/
def SEMANTIC_ORDER : List String := ["truecase", "filler", "repetition", "repair", "list"]

/-- A stage runs iff it was requested and its model loaded
(`model_name in requested_models and model_name in MODELS`). -/
def applies (requested loaded : List String) (m : String) : Bool :=
  decide (m ∈ requested) && decide (m ∈ loaded)

/-- The `models_applied` sequence produced by `ml/server.py process`:
truecasing first, then the disfluency loop over `DISFLUENCY_ORDER`, then
the list formatter — regardless of the order of `requested_models`. -/
def modelsApplied (requested loaded : List String) : List String :=
  (if applies requested loaded "truecase" then ["truecase"] else []) ++
  DISFLUENCY_ORDER.filter (applies requested loaded) ++
  (if applies requested loaded "list" then ["list"] else [])

/-- `TranscriptPipeline.__init__`: the model list is built by appending
the enabled removers in the fixed order filler, repetition, repair. -/
def pipelineInitNames (enableFillers enableRepetitions enableRepairs : Bool) :
    List String :=
  (if enableFillers then ["FillerRemover"] else []) ++
  (if enableRepetitions then ["RepetitionRemover"] else []) ++
  (if enableRepairs then ["RepairRemover"] else [])

/-- A pipeline stage together with its recorded class name, as traversed
by `TranscriptPipeline.process_with_details`. -/
structure NamedStage where
  name : String
  wl : Nat → Option String
  isRepair : Bool

/-- One recorded step of `TranscriptPipeline.process_with_details`. -/
structure StepRec where
  model : String
  input : List Char
  output : List Char
  removed : List (List Char)

/-- The `steps` list of `TranscriptPipeline.process_with_details`: each
stage is recorded in traversal order with its details, threading each
stage's output into the next stage. -/
def pipelineDetails : List NamedStage → List Char → List StepRec
  | [], _ => []
  | m :: rest, text =>
    let r := processDetails m.wl text
    ⟨m.name, text, r.output, r.removed⟩ :: pipelineDetails rest r.output

/-- C8: the executed stage sequence is the subsequence of the fixed
semantic order `truecase, filler, repetition, repair, list` consisting of
the enabled stages: the server applies models in that order however the
request lists them (membership-equal request lists give identical
execution), `TranscriptPipeline.__init__` builds its model list in the
fixed filler/repetition/repair order from its flags, and the recorded
`steps` of `process_with_details` follow the model-list order. -/
theorem C8_main (requested loaded : List String)
    (ef er erp : Bool) (models : List NamedStage) (text : List Char) :
    (modelsApplied requested loaded =
      SEMANTIC_ORDER.filter (applies requested loaded)) ∧
    (∀ requested' : List String, (∀ m, m ∈ requested ↔ m ∈ requested') →
      modelsApplied requested loaded = modelsApplied requested' loaded) ∧
    (pipelineInitNames ef er erp =
      (["FillerRemover", "RepetitionRemover", "RepairRemover"] : List String).filter
        (fun n => if n == "FillerRemover" then ef
          else if n == "RepetitionRemover" then er else erp)) ∧
    ((pipelineDetails models text).map (·.model) = models.map (·.name)) := by
  refine ⟨?_, ?_, ?_, ?_⟩
  · rw [modelsApplied, SEMANTIC_ORDER, DISFLUENCY_ORDER]
    simp only [List.filter_cons, List.filter_nil]
    cases h1 : applies requested loaded "truecase" <;>
      cases h2 : applies requested loaded "filler" <;>
        cases h3 : applies requested loaded "repetition" <;>
          cases h4 : applies requested loaded "repair" <;>
            cases h5 : applies requested loaded "list" <;> simp
  · intro requested' h
    have happ : ∀ m, applies requested loaded m = applies requested' loaded m := by
      intro m
      rw [applies, applies, decide_eq_decide.mpr (h m)]
    rw [modelsApplied, modelsApplied, happ "truecase", happ "list",
      List.filter_congr (fun m _ => happ m)]
  · cases ef <;> cases er <;> cases erp <;> rfl
  · induction models generalizing text with
    | nil => rfl
    | cons m rest ih =>
      rw [pipelineDetails]
      simp only [List.map_cons]
      rw [ih]

/-- C8 witness: with filler and repetition requested in either order (and
both loaded), the server executes filler before repetition. -/
theorem C8_witness :
    modelsApplied ["repetition", "filler"] ["filler", "repetition"] =
      modelsApplied ["filler", "repetition"] ["filler", "repetition"] ∧
    modelsApplied ["repetition", "filler"] ["filler", "repetition"] =
      ["filler", "repetition"] := by
  constructor
  · exact (C8_main ["repetition", "filler"] ["filler", "repetition"]
      true true false [] []).2.1 ["filler", "repetition"]
      (fun m => by simp [List.mem_cons, or_comm])
  · decide

/-! ## Claim C9: list structuring
(`ListFormatter._fix_newlines`, `ml/server.py convert_list_style`) -/

/-- `ListFormatter._fix_newlines`: Python
`re.sub` of `(?<!^)(\s-\s)(?=[A-Z])` with newline-dash-space — a
left-to-right scan; a whitespace/dash/whitespace triple not starting at
position 0 and followed by an uppercase letter is replaced, the scan
resuming after the consumed triple. -/
def fixNewlinesAux : Nat → Nat → List Char → List Char
  | 0, _, s => s
  | _ + 1, _, [] => []
  | fuel + 1, i, c :: rest =>
    match rest with
    | d :: e :: f :: t =>
      if i != 0 && c.isWhitespace && d == '-' && e.isWhitespace && f.isUpper then
        '\n' :: '-' :: ' ' :: fixNewlinesAux fuel (i + 3) (f :: t)
      else c :: fixNewlinesAux fuel (i + 1) rest
    | _ => c :: fixNewlinesAux fuel (i + 1) rest

/-- `ListFormatter._fix_newlines` on a whole string (the fuel `s.length`
always suffices since every step consumes at least one character). -/
def fixNewlines (s : List Char) : List Char := fixNewlinesAux s.length 0 s

/-- The numbered-rewrite loop of `ml/server.py convert_list_style`:
bulleted lines become `"<n>. "` with `n` incrementing across consecutive
bulleted lines and resetting to 1 after any non-bulleted line. -/
def numberLines : Nat → List (List Char) → List (List Char)
  | _, [] => []
  | num, line :: rest =>
    if ("- ".data).isPrefixOf line then
      ((Nat.repr num).data ++ ". ".data ++ line.drop 2) :: numberLines (num + 1) rest
    else line :: numberLines 1 rest

/-- `ml/server.py convert_list_style`. -/
def convertListStyle (style : String) (text : List Char) : List Char :=
  if style ≠ "numbered" then text
  else List.intercalate ['\n'] (numberLines 1 (text.splitOn '\n'))

/-- C9: the newline fix-up turns `"- First item - Second item"` into
`"- First item\n- Second item"` (leading bullet untouched), and the
numbering conversion turns that into `"1. First item\n2. Second item"`. -/
theorem C9_main :
    fixNewlines "- First item - Second item".data =
      "- First item\n- Second item".data ∧
    convertListStyle "numbered" "- First item\n- Second item".data =
      "1. First item\n2. Second item".data := by
  refine ⟨by decide, by decide⟩

/-! ## Claim C4: repetition-vs-repair overlap heuristic
(`ml/training/train_repetition_only.py is_repetition`) -/

/-- Switchboard tags collected as reparandum words by `is_repetition`. -/
def reparandumTags : List String := ["BE", "IE", "BE_IP"]

/-- Switchboard tags collected as following fluent words. -/
def fluentTags : List String := ["O", "C"]

/-- `w.lower()` (ASCII). -/
def lowerW (w : List Char) : List Char := w.map Char.toLower

/-- The collection loop of `is_repetition`: reparandum words are those
tagged `BE`/`IE`/`BE_IP`; fluent (`O`/`C`) words are collected as repair
words once a reparandum word has been seen. -/
def collectRR : List (List Char × String) → Bool → List (List Char) × List (List Char)
  | [], _ => ([], [])
  | (w, t) :: rest, seen =>
    if t ∈ reparandumTags then
      let r := collectRR rest true
      (lowerW w :: r.1, r.2)
    else if t ∈ fluentTags ∧ seen = true then
      let r := collectRR rest seen
      (r.1, lowerW w :: r.2)
    else collectRR rest seen

/-- Result triple of `is_repetition`. -/
structure RepResult where
  isRep : Bool
  reparandum : List (List Char)
  repair : List (List Char)
deriving DecidableEq

/-- `is_repetition(words, tags)`: zero reparandum words short-circuit;
otherwise the overlap of the distinct reparandum words with the distinct
words of the first `len(reparandum) + 3` repair words is compared to
`OVERLAP_THRESHOLD = 0.5`.  The Python float ratio is modelled as an
exact rational (exact at these magnitudes). -/
def isRepetition (words : List (List Char)) (tags : List String) : RepResult :=
  let c := collectRR (words.zip tags) false
  if c.1 = [] then ⟨false, [], []⟩
  else
    let repSet := c.1.dedup
    let repairSet := (c.2.take (c.1.length + 3)).dedup
    let overlap := repSet.filter (fun w => decide (w ∈ repairSet))
    let ratio : ℚ := (overlap.length : ℚ) / (repSet.length : ℚ)
    ⟨decide (ratio ≥ 1/2), c.1, c.2⟩

/-- The reparandum word list as the spec describes it: the lowercased
words whose tag is a reparandum tag. -/
def specReparandum (words : List (List Char)) (tags : List String) : List (List Char) :=
  ((words.zip tags).filter (fun p => decide (p.2 ∈ reparandumTags))).map
    (fun p => lowerW p.1)

/-- The repair word list as the spec describes it: the lowercased fluent
words following the first reparandum word. -/
def specRepairWords (words : List (List Char)) (tags : List String) : List (List Char) :=
  (((words.zip tags).dropWhile (fun p => !decide (p.2 ∈ reparandumTags))).filter
    (fun p => decide (p.2 ∈ fluentTags))).map (fun p => lowerW p.1)

/-- The spec's overlap ratio: `|reparandum-set ∩ repair-window-set| /
|reparandum-set|`, the window being the first `|reparandum| + 3` repair
words. -/
def specOverlapRatio (words : List (List Char)) (tags : List String) : ℚ :=
  let repSet := (specReparandum words tags).dedup
  let window := ((specRepairWords words tags).take
    ((specReparandum words tags).length + 3)).dedup
  ((repSet.filter (fun w => decide (w ∈ window))).length : ℚ) / (repSet.length : ℚ)

theorem reparandum_not_fluent (t : String) (h : t ∈ reparandumTags) :
    ¬ t ∈ fluentTags := by
  fin_cases h <;> decide

/-- The single collection pass equals the declarative description. -/
theorem collectRR_eq : ∀ (pairs : List (List Char × String)) (seen : Bool),
    collectRR pairs seen =
      ((pairs.filter (fun p => decide (p.2 ∈ reparandumTags))).map (fun p => lowerW p.1),
       (if seen then pairs
        else pairs.dropWhile (fun p => !decide (p.2 ∈ reparandumTags))).filter
          (fun p => decide (p.2 ∈ fluentTags)) |>.map (fun p => lowerW p.1)) := by
  intro pairs
  induction pairs with
  | nil => intro seen; cases seen <;> simp [collectRR]
  | cons p rest ih =>
    intro seen
    obtain ⟨w, t⟩ := p
    by_cases hrep : t ∈ reparandumTags
    · have hnf := reparandum_not_fluent t hrep
      rw [collectRR]
      simp only [if_pos hrep, ih true]
      cases seen <;>
        simp [List.filter_cons, List.dropWhile_cons, hrep, hnf]
    · by_cases hflu : t ∈ fluentTags
      · cases seen with
        | true =>
          rw [collectRR]
          simp only [if_neg hrep, if_pos (And.intro hflu rfl), ih true]
          simp [List.filter_cons, hrep, hflu]
        | false =>
          rw [collectRR]
          have hno : ¬ (t ∈ fluentTags ∧ false = true) := by simp
          simp only [if_neg hrep, if_neg hno, ih false]
          simp [List.filter_cons, List.dropWhile_cons, hrep, hflu]
      · cases seen with
        | true =>
          rw [collectRR]
          have hno : ¬ (t ∈ fluentTags ∧ true = true) := by simp [hflu]
          simp only [if_neg hrep, if_neg hno, ih true]
          simp [List.filter_cons, hrep, hflu]
        | false =>
          rw [collectRR]
          have hno : ¬ (t ∈ fluentTags ∧ false = true) := by simp
          simp only [if_neg hrep, if_neg hno, ih false]
          simp [List.filter_cons, List.dropWhile_cons, hrep, hflu]

/-- `is_repetition` with a nonempty reparandum equals the spec's
formula-based description. -/
theorem isRepetition_eq_spec (words : List (List Char)) (tags : List String)
    (hne : specReparandum words tags ≠ []) :
    isRepetition words tags =
      ⟨decide (specOverlapRatio words tags ≥ 1/2),
       specReparandum words tags, specRepairWords words tags⟩ := by
  have hc := collectRR_eq (words.zip tags) false
  have hfst : (collectRR (words.zip tags) false).1 = specReparandum words tags := by
    rw [hc]
    rfl
  have hsnd : (collectRR (words.zip tags) false).2 = specRepairWords words tags := by
    rw [hc]
    rfl
  rw [isRepetition]
  simp only [hfst, hsnd, if_neg hne]
  rfl

/-- C4: with at least one reparandum word, `is_repetition` classifies
REPETITION iff the spec's set-overlap ratio is at least 1/2, returning
exactly the spec's reparandum and repair word lists; with none it
returns not-a-repetition with empty lists; and the spec's two concrete
examples behave as stated. -/
theorem C4_main (words : List (List Char)) (tags : List String) :
    (specReparandum words tags ≠ [] →
      isRepetition words tags =
        ⟨decide (specOverlapRatio words tags ≥ 1/2),
         specReparandum words tags, specRepairWords words tags⟩) ∧
    (specReparandum words tags = [] →
      isRepetition words tags = ⟨false, [], []⟩) ∧
    isRepetition ["i".data, "i".data, "think".data] ["BE", "O", "O"] =
      ⟨true, ["i".data], ["i".data, "think".data]⟩ ∧
    isRepetition ["store".data, "mall".data] ["BE", "O"] =
      ⟨false, ["store".data], ["mall".data]⟩ := by
  refine ⟨isRepetition_eq_spec words tags, ?_, ?_, ?_⟩
  · intro he
    have hc := collectRR_eq (words.zip tags) false
    have hfst : (collectRR (words.zip tags) false).1 = specReparandum words tags := by
      rw [hc]
      rfl
    rw [isRepetition]
    simp only [hfst, if_pos he]
  · rw [isRepetition_eq_spec _ _ (by decide)]
    have hnum : (((specReparandum ["i".data, "i".data, "think".data]
        ["BE", "O", "O"]).dedup).filter
        (fun w => decide (w ∈ ((specRepairWords ["i".data, "i".data, "think".data]
          ["BE", "O", "O"]).take ((specReparandum ["i".data, "i".data, "think".data]
            ["BE", "O", "O"]).length + 3)).dedup))).length = 1 := by decide
    have hden : ((specReparandum ["i".data, "i".data, "think".data]
        ["BE", "O", "O"]).dedup).length = 1 := by decide
    have hq : specOverlapRatio ["i".data, "i".data, "think".data] ["BE", "O", "O"] = 1 := by
      simp only [specOverlapRatio]
      rw [hnum, hden]
      norm_num
    simp only [RepResult.mk.injEq]
    refine ⟨?_, by decide, by decide⟩
    rw [decide_eq_true_eq, hq]
    norm_num
  · rw [isRepetition_eq_spec _ _ (by decide)]
    have hnum : (((specReparandum ["store".data, "mall".data]
        ["BE", "O"]).dedup).filter
        (fun w => decide (w ∈ ((specRepairWords ["store".data, "mall".data]
          ["BE", "O"]).take ((specReparandum ["store".data, "mall".data]
            ["BE", "O"]).length + 3)).dedup))).length = 0 := by decide
    have hden : ((specReparandum ["store".data, "mall".data] ["BE", "O"]).dedup).length = 1 := by
      decide
    have hq : specOverlapRatio ["store".data, "mall".data] ["BE", "O"] = 0 := by
      simp only [specOverlapRatio]
      rw [hnum, hden]
      norm_num
    simp only [RepResult.mk.injEq]
    refine ⟨?_, by decide, by decide⟩
    rw [decide_eq_false_iff_not, hq]
    norm_num

/-- C4 witness: the claim's formula applied to the first concrete
example, discharging the nonempty-reparandum hypothesis. -/
theorem C4_witness :
    isRepetition ["i".data, "i".data, "think".data] ["BE", "O", "O"] =
      ⟨decide (specOverlapRatio ["i".data, "i".data, "think".data] ["BE", "O", "O"] ≥ 1/2),
       specReparandum ["i".data, "i".data, "think".data] ["BE", "O", "O"],
       specRepairWords ["i".data, "i".data, "think".data] ["BE", "O", "O"]⟩ :=
  (C4_main ["i".data, "i".data, "think".data] ["BE", "O", "O"]).1 (by decide)

/-! ## Claim C2: word/subword label alignment round-trip
(`train_repetition.py tokenize_and_align_labels`,
`ml/pipeline/models.py BaseModel._get_word_labels`) -/

/-- `LABEL_LIST = ["O", "B-REP", "I-REP"]`. -/
def LABEL_LIST : List String := ["O", "B-REP", "I-REP"]

/-- `LABEL2ID` (label-to-index dict built from `LABEL_LIST`). -/
def LABEL2ID (s : String) : Nat := LABEL_LIST.indexOf s

/-- `ID2LABEL` / `model.config.id2label`. -/
def ID2LABEL (i : Nat) : String := LABEL_LIST.getD i ""

/-- The alignment loop of `tokenize_and_align_labels`: walk the
tokenizer's `word_ids`, emitting `-100` for special tokens, the word's
label id at the first subword of each word (a change of `word_idx`), and
the continuation form (`B-REP` becomes `I-REP`, others unchanged) for
repeated `word_idx`.  `label[word_idx]` is modelled with `getD` (Python
would raise on an out-of-range index). -/
def alignLabels (labels : List Nat) : Option Nat → List (Option Nat) → List Int
  | _, [] => []
  | _, none :: rest => -100 :: alignLabels labels none rest
  | prev, some w :: rest =>
    (if (some w : Option Nat) ≠ prev then (labels.getD w 0 : Int)
     else if LABEL_LIST.getD (labels.getD w 0) "" = "B-REP" then
       (LABEL2ID "I-REP" : Int)
     else (labels.getD w 0 : Int)) :: alignLabels labels (some w) rest

/-- `tokenize_and_align_labels` label expansion (initial
`previous_word_idx = None`). -/
def alignWordLabels (labels : List Nat) (word_ids : List (Option Nat)) : List Int :=
  alignLabels labels none word_ids

/-- The reconstruction loop of `BaseModel._get_word_labels`: walk
`(word_ids, prediction)` pairs and record, for each word index not yet
present, the label of its first subword. -/
def gatherWordLabels : List (Option Nat × Int) → List (Nat × String) → List (Nat × String)
  | [], acc => acc
  | (none, _) :: rest, acc => gatherWordLabels rest acc
  | (some w, p) :: rest, acc =>
    if (acc.lookup w).isSome then gatherWordLabels rest acc
    else gatherWordLabels rest (acc ++ [(w, ID2LABEL p.toNat)])

/-- `BaseModel._get_word_labels` word-label dict from per-subword
predictions. -/
def getWordLabels (word_ids : List (Option Nat)) (preds : List Int) :
    List (Nat × String) :=
  gatherWordLabels (word_ids.zip preds) []

theorem lookup_append_left {i : Nat} {v : String} :
    ∀ (acc rest : List (Nat × String)), acc.lookup i = some v →
      (acc ++ rest).lookup i = some v := by
  intro acc rest h
  induction acc with
  | nil => simp [List.lookup] at h
  | cons q acc ih =>
    rw [List.cons_append, List.lookup]
    rw [List.lookup] at h
    by_cases he : i = q.1
    · simp only [he, beq_self_eq_true] at h ⊢
      exact h
    · have hb : (i == q.1) = false := beq_false_of_ne he
      simp only [hb] at h ⊢
      exact ih h

theorem lookup_append_eq_none {i : Nat} {w : Nat} {x : String}
    (hne : i ≠ w) : ∀ (acc : List (Nat × String)), acc.lookup i = none →
      (acc ++ [(w, x)]).lookup i = none := by
  intro acc h
  induction acc with
  | nil => simp [List.lookup, beq_false_of_ne hne]
  | cons q acc ih =>
    rw [List.cons_append, List.lookup]
    rw [List.lookup] at h
    by_cases he : i = q.1
    · simp only [he, beq_self_eq_true] at h
      exact absurd h (by simp)
    · have hb : (i == q.1) = false := beq_false_of_ne he
      simp only [hb] at h ⊢
      exact ih h

/-- Once a word's label is recorded, later subwords never change it. -/
theorem gather_preserves {i : Nat} {v : String} :
    ∀ (l : List (Option Nat × Int)) (acc : List (Nat × String)),
      acc.lookup i = some v → (gatherWordLabels l acc).lookup i = some v := by
  intro l
  induction l with
  | nil => intro acc h; exact h
  | cons q rest ih =>
    intro acc h
    obtain ⟨o, p⟩ := q
    cases o with
    | none => rw [gatherWordLabels]; exact ih acc h
    | some w =>
      rw [gatherWordLabels]
      by_cases hw : (acc.lookup w).isSome
      · rw [if_pos hw]; exact ih acc h
      · rw [if_neg hw]
        exact ih _ (lookup_append_left acc _ h)

/-- Core round-trip induction: if word `i` still lies ahead, the previous
word index differs from `i`, and `i` is unrecorded, then after expansion
and gathering, word `i`'s recorded label is its original label. -/
theorem roundtrip_aux (labels : List Nat) {i : Nat} :
    ∀ (word_ids : List (Option Nat)) (prev : Option Nat)
      (acc : List (Nat × String)),
      some i ∈ word_ids → prev ≠ some i → acc.lookup i = none →
      (gatherWordLabels (word_ids.zip (alignLabels labels prev word_ids)) acc).lookup i =
        some (ID2LABEL (labels.getD i 0)) := by
  intro word_ids
  induction word_ids with
  | nil => intro prev acc hmem _ _; simp at hmem
  | cons o rest ih =>
    intro prev acc hmem hprev hacc
    cases o with
    | none =>
      rw [alignLabels, List.zip_cons_cons, gatherWordLabels]
      have hmem' : some i ∈ rest := by
        rcases List.mem_cons.mp hmem with h | h
        · exact absurd h (by simp)
        · exact h
      exact ih none acc hmem' (by simp) hacc
    | some w =>
      by_cases hw : w = i
      · subst hw
        rw [alignLabels, List.zip_cons_cons, gatherWordLabels]
        rw [if_neg (by simp [hacc]), if_pos (by
          intro hcon
          exact hprev (hcon ▸ rfl))]
        apply gather_preserves
        have htn : (labels.getD w 0 : Int).toNat = labels.getD w 0 := Int.toNat_ofNat _
        rw [htn]
        have hlk : (acc.lookup w) = none := hacc
        induction acc with
        | nil => simp [List.lookup]
        | cons q acc ihq =>
          rw [List.cons_append, List.lookup]
          rw [List.lookup] at hlk
          by_cases he : w = q.1
          · simp only [he, beq_self_eq_true] at hlk
            exact absurd hlk (by simp)
          · have hb : (w == q.1) = false := beq_false_of_ne he
            simp only [hb] at hlk ⊢
            exact ihq (by rw [List.lookup, hb] at hacc; exact hacc) hlk
      · rw [alignLabels, List.zip_cons_cons, gatherWordLabels]
        have hmem' : some i ∈ rest := by
          rcases List.mem_cons.mp hmem with h | h
          · exact absurd (Option.some.inj h.symm) hw
          · exact h
        have hprev' : (some w : Option Nat) ≠ some i := by
          intro hcon
          exact hw (Option.some.inj hcon)
        by_cases hl : (acc.lookup w).isSome
        · rw [if_pos hl]
          exact ih (some w) acc hmem' hprev' hacc
        · rw [if_neg hl]
          refine ih (some w) _ hmem' hprev' ?_
          exact lookup_append_eq_none (fun he => hw he.symm) acc hacc

/-- C2: expanding word labels to subword labels with
`tokenize_and_align_labels` (first subword gets the word's label, later
subwords the continuation form, special tokens `-100`) and reconstructing
word labels with `_get_word_labels` (each word's first subword's
prediction) reproduces every original word label, for any tokenization in
which every word receives at least one subword.  (Contiguity of a word's
subwords is not even needed for the round trip.) -/
theorem C2_main (labels : List Nat) (word_ids : List (Option Nat))
    (hcover : ∀ i < labels.length, (some i) ∈ word_ids) :
    ∀ i < labels.length,
      (getWordLabels word_ids (alignWordLabels labels word_ids)).lookup i =
        some (ID2LABEL (labels.getD i 0)) := by
  intro i hi
  exact roundtrip_aux labels word_ids none [] (hcover i hi) (by simp) rfl

/-- C2 witness: two words tagged `B-REP`, `O`; expansion over the
tokenization `[CLS] w0 w0 w1 [SEP]` and reconstruction return the
original tags. -/
theorem C2_witness :
    (getWordLabels [none, some 0, some 0, some 1, none]
        (alignWordLabels [1, 0] [none, some 0, some 0, some 1, none])).lookup 0 =
      some (ID2LABEL (([1, 0] : List Nat).getD 0 0)) ∧
    (getWordLabels [none, some 0, some 0, some 1, none]
        (alignWordLabels [1, 0] [none, some 0, some 0, some 1, none])).lookup 1 =
      some (ID2LABEL (([1, 0] : List Nat).getD 1 0)) := by
  have h := C2_main [1, 0] [none, some 0, some 0, some 1, none] (by decide)
  exact ⟨h 0 (by decide), h 1 (by decide)⟩

/-! ## Claims C1, C3: the annotation parsers
(`train_repetition.py parse_disfluency_speech_transcript`,
`train_filler.py parse_fillers_only`)

The Python scanners try anchored regexes at the cursor.  The regex
behaviours modelled below:

* `re.sub` of `<[^>]+>` with the empty string: at a `<`, the match runs
  to the first following `>` provided at least one character lies
  between; otherwise the scan moves on one character.
* `{F\s+([^}]+)}` (same for `D`, `C`): after `{F` the region up to the
  first `}` must exist, have length at least two and start with a
  whitespace character (`\s+` then a nonempty group of non-`}`
  characters).  Since the emitted words come from
  `group(1).strip().replace(',', '').split()` and the `\s+` part of the
  region is leading whitespace, splitting the whole region is
  equivalent.
* `[\s*([^+\]]*)\+\s*([^\]]*)]`: the first `+`/`]` after the `[` must be
  a `+`, and a `]` must follow it; the two groups are the regions
  between, their leading `\s*` again absorbed by `strip()`/`split()`.
* `[\w']+`: a maximal run of word characters (ASCII letters, digits,
  underscore — the corpora are ASCII) or apostrophes.

Both scan loops advance the cursor by at least one character per
iteration, so the fuel `text.length` used below never runs out. -/

/-- BIO tags emitted by the parsers; `Tag.B "REP"` models `'B-REP'`,
`Tag.I "FILL"` models `'I-FILL'`, and so on. -/
inductive Tag where
  | O : Tag
  | B (cat : String) : Tag
  | I (cat : String) : Tag
deriving DecidableEq

/-- A character matched by the word-run pattern. -/
def isWordChar (c : Char) : Bool := c.isAlphanum || c == '_' || c == '\''

/-- `word.startswith('-')`. -/
def startsDash (w : List Char) : Bool :=
  match w with
  | [] => false
  | c :: _ => c == '-'

/-- `region.strip().replace(',', '').split()`. -/
def wordsOf (region : List Char) : List (List Char) :=
  splitWs (region.filter (fun c => c != ','))

/-- Markup removal `re.sub` of `<[^>]+>` (fuel-driven left-to-right scan;
the fuel `s.length` always suffices since every step consumes a
character). -/
def removeMarkupAux : Nat → List Char → List Char
  | 0, s => s
  | _ + 1, [] => []
  | fuel + 1, c :: rest =>
    if c == '<' then
      let pre := rest.takeWhile (fun d => d != '>')
      let post := rest.dropWhile (fun d => d != '>')
      match post, pre with
      | _ :: post', _ :: _ => removeMarkupAux fuel post'
      | _, _ => c :: removeMarkupAux fuel rest
    else c :: removeMarkupAux fuel rest

/-- Markup removal before either parser's scan. -/
def removeMarkup (s : List Char) : List Char := removeMarkupAux s.length s

/-- Anchored match of the `{K ...}` bracket pattern for a kind `K`;
returns the region between `{K` and the first `}`, and the remainder
after the `}`. -/
def matchBrace (k : Char) : List Char → Option (List Char × List Char)
  | '{' :: c :: rest =>
    if c == k then
      let pre := rest.takeWhile (fun d => d != '}')
      let post := rest.dropWhile (fun d => d != '}')
      match post, pre with
      | _ :: post', p0 :: _ :: _ =>
        if p0.isWhitespace then some (pre, post') else none
      | _, _ => none
    else none
  | _ => none

/-- Anchored match of the `[ ... + ... ]` repair pattern; returns the two
group regions and the remainder after the `]`. -/
def matchRepair : List Char → Option (List Char × List Char × List Char)
  | '[' :: rest =>
    let pre1 := rest.takeWhile (fun d => d != '+' && d != ']')
    let post1 := rest.dropWhile (fun d => d != '+' && d != ']')
    match post1 with
    | '+' :: rest2 =>
      let pre2 := rest2.takeWhile (fun d => d != ']')
      let post2 := rest2.dropWhile (fun d => d != ']')
      match post2 with
      | _ :: post2' => some (pre1, pre2, post2')
      | [] => none
    | _ => none
  | _ => none

/-- Tags of an enumerated span loop
(`'B-…' if j == 0 else 'I-…'` over `enumerate(words)`). -/
def spanTags (cat : String) (words : List (List Char)) : List Tag :=
  (List.range words.length).map (fun j => if j = 0 then Tag.B cat else Tag.I cat)

/-- Tokens of the reparandum loop of `parse_disfluency_speech_transcript`
(`if word and not word.startswith('-')`, lowercased). -/
def repairTokens (ws : List (List Char)) : List (List Char) :=
  ((ws.enum).filter (fun p => decide (p.2 ≠ []) && !startsDash p.2)).map
    (fun p => lowerW p.2)

/-- Tags of the reparandum loop: `'B-REP' if j == 0 else 'I-REP'` with `j`
the `enumerate` index — even when the word at `j = 0` was dropped as a
fragment. -/
def repairTags (cat : String) (ws : List (List Char)) : List Tag :=
  ((ws.enum).filter (fun p => decide (p.2 ≠ []) && !startsDash p.2)).map
    (fun p => if p.1 = 0 then Tag.B cat else Tag.I cat)

/-- Tokens of a non-enumerated kept loop with the fragment filter
(`if word and not word.startswith('-')`, lowercased). -/
def keptTokens (ws : List (List Char)) : List (List Char) :=
  (ws.filter (fun w => decide (w ≠ []) && !startsDash w)).map lowerW

/-- The scan loop of `parse_disfluency_speech_transcript` (combined
variant): `{F}` and `{D}` spans are `B-REP`/`I-REP`, `{C}` is kept as
`O`, repairs tag the reparandum `B-REP`/`I-REP` and keep the repair side
as `O` (fragment words dropped on both sides), word runs are `O`, other
characters are skipped. -/
def parseRepAux : Nat → List Char → List (List Char) × List Tag
  | 0, _ => ([], [])
  | _ + 1, [] => ([], [])
  | fuel + 1, c :: rest =>
    match matchBrace 'F' (c :: rest) with
    | some (region, rem) =>
      let words := wordsOf region
      let r := parseRepAux fuel rem
      (words.map lowerW ++ r.1, spanTags "REP" words ++ r.2)
    | none =>
    match matchBrace 'D' (c :: rest) with
    | some (region, rem) =>
      let words := wordsOf region
      let r := parseRepAux fuel rem
      (words.map lowerW ++ r.1, spanTags "REP" words ++ r.2)
    | none =>
    match matchBrace 'C' (c :: rest) with
    | some (region, rem) =>
      let words := wordsOf region
      let r := parseRepAux fuel rem
      (words.map lowerW ++ r.1, words.map (fun _ => Tag.O) ++ r.2)
    | none =>
    match matchRepair (c :: rest) with
    | some (r1, r2, rem) =>
      let before := wordsOf r1
      let after := wordsOf r2
      let r := parseRepAux fuel rem
      (repairTokens before ++ keptTokens after ++ r.1,
       repairTags "REP" before ++ (keptTokens after).map (fun _ => Tag.O) ++ r.2)
    | none =>
      if isWordChar c then
        let run := c :: rest.takeWhile isWordChar
        let r := parseRepAux fuel (rest.dropWhile isWordChar)
        (run.map Char.toLower :: r.1, Tag.O :: r.2)
      else parseRepAux fuel rest

/-- `parse_disfluency_speech_transcript`. -/
def parseDisfluencySpeechTranscript (s : List Char) : List (List Char) × List Tag :=
  let text := removeMarkup s
  parseRepAux text.length text

/-- The scan loop of `parse_fillers_only`: `{F}` spans are
`B-FILL`/`I-FILL`, `{D}` and `{C}` are kept as `O`, both sides of a
repair are kept as `O` (fragment words dropped), word runs are `O`,
other characters are skipped. -/
def parseFillerAux : Nat → List Char → List (List Char) × List Tag
  | 0, _ => ([], [])
  | _ + 1, [] => ([], [])
  | fuel + 1, c :: rest =>
    match matchBrace 'F' (c :: rest) with
    | some (region, rem) =>
      let words := wordsOf region
      let r := parseFillerAux fuel rem
      (words.map lowerW ++ r.1, spanTags "FILL" words ++ r.2)
    | none =>
    match matchBrace 'D' (c :: rest) with
    | some (region, rem) =>
      let words := wordsOf region
      let r := parseFillerAux fuel rem
      (words.map lowerW ++ r.1, words.map (fun _ => Tag.O) ++ r.2)
    | none =>
    match matchBrace 'C' (c :: rest) with
    | some (region, rem) =>
      let words := wordsOf region
      let r := parseFillerAux fuel rem
      (words.map lowerW ++ r.1, words.map (fun _ => Tag.O) ++ r.2)
    | none =>
    match matchRepair (c :: rest) with
    | some (r1, r2, rem) =>
      let r := parseFillerAux fuel rem
      (keptTokens (wordsOf r1) ++ keptTokens (wordsOf r2) ++ r.1,
       (keptTokens (wordsOf r1)).map (fun _ => Tag.O) ++
         (keptTokens (wordsOf r2)).map (fun _ => Tag.O) ++ r.2)
    | none =>
      if isWordChar c then
        let run := c :: rest.takeWhile isWordChar
        let r := parseFillerAux fuel (rest.dropWhile isWordChar)
        (run.map Char.toLower :: r.1, Tag.O :: r.2)
      else parseFillerAux fuel rest

/-- `parse_fillers_only`. -/
def parseFillersOnly (s : List Char) : List (List Char) × List Tag :=
  let text := removeMarkup s
  parseFillerAux text.length text

/-- BIO well-formedness step: an `I-X` must follow a `B-X` or `I-X` of
the same category; `O` and `B-X` are always admissible. -/
def bioStep : Option Tag → Tag → Bool
  | _, Tag.O => true
  | _, Tag.B _ => true
  | prev, Tag.I cat => prev == some (Tag.B cat) || prev == some (Tag.I cat)

/-- BIO well-formedness of a tag list continuing a given previous tag. -/
def bioAux : Option Tag → List Tag → Bool
  | _, [] => true
  | prev, t :: rest => bioStep prev t && bioAux (some t) rest

/-- BIO well-formedness of a whole tag sequence: no `I-X` without an
immediately preceding `B-X`/`I-X` of the same `X`. -/
def bioWF (tags : List Tag) : Bool := bioAux none tags

theorem bioAux_append {p : Option Tag} {xs ys : List Tag}
    (hxs : bioAux p xs = true) (hys : ∀ q, bioAux q ys = true) :
    bioAux p (xs ++ ys) = true := by
  induction xs generalizing p with
  | nil => simpa using hys p
  | cons t xs ih =>
    rw [List.cons_append]
    simp only [bioAux, Bool.and_eq_true] at hxs ⊢
    exact ⟨hxs.1, ih hxs.2⟩

theorem bioAux_allO {l : List Tag} (h : ∀ t ∈ l, t = Tag.O) :
    ∀ q, bioAux q l = true := by
  induction l with
  | nil => intro q; rfl
  | cons t xs ih =>
    intro q
    have ht : t = Tag.O := h t (List.mem_cons_self t xs)
    subst ht
    simp only [bioAux, bioStep, Bool.true_and]
    exact ih (fun u hu => h u (List.mem_cons_of_mem _ hu)) _

theorem bioAux_allI {cat : String} {l : List Tag} (h : ∀ t ∈ l, t = Tag.I cat) :
    ∀ q, (q = some (Tag.B cat) ∨ q = some (Tag.I cat)) → bioAux q l = true := by
  induction l with
  | nil => intro q _; rfl
  | cons t xs ih =>
    intro q hq
    have ht : t = Tag.I cat := h t (List.mem_cons_self t xs)
    subst ht
    simp only [bioAux, Bool.and_eq_true]
    constructor
    · rcases hq with rfl | rfl <;> simp [bioStep]
    · exact ih (fun u hu => h u (List.mem_cons_of_mem _ hu)) _ (Or.inr rfl)

theorem bioAux_B_cons {cat : String} {l : List Tag} {q : Option Tag}
    (h : bioAux (some (Tag.B cat)) l = true) :
    bioAux q (Tag.B cat :: l) = true := by
  simp only [bioAux, bioStep, Bool.true_and]
  exact h

/-- A span chunk `B-X, I-X, …` is admissible after anything. -/
theorem spanTags_chunk (cat : String) (words : List (List Char)) :
    ∀ q, bioAux q (spanTags cat words) = true := by
  intro q
  rw [spanTags]
  cases hn : words.length with
  | zero => rfl
  | succ n =>
    rw [List.range_succ_eq_map, List.map_cons, List.map_map]
    simp only [if_pos rfl]
    apply bioAux_B_cons
    apply bioAux_allI ?_ _ (Or.inl rfl)
    intro t ht
    obtain ⟨j, _, rfl⟩ := List.mem_map.mp ht
    simp [Function.comp]

/-- An all-`O` chunk is admissible after anything. -/
theorem mapO_chunk {α : Type} (ws : List α) :
    ∀ q, bioAux q (ws.map (fun _ => Tag.O)) = true := by
  apply bioAux_allO
  intro t ht
  obtain ⟨_, _, rfl⟩ := List.mem_map.mp ht
  rfl

/-- The reparandum chunk is admissible after anything provided the first
reparandum word is not a dropped fragment. -/
theorem repairTags_chunk {cat : String} {ws : List (List Char)}
    (h : ws = [] ∨ ∃ w t, ws = w :: t ∧ w ≠ [] ∧ startsDash w = false) :
    ∀ q, bioAux q (repairTags cat ws) = true := by
  intro q
  rcases h with rfl | ⟨w, t, rfl, hne, hdash⟩
  · rfl
  · rw [repairTags, List.enum, List.enumFrom_cons]
    rw [List.filter_cons]
    have : (decide (((0 : Nat), w).2 ≠ []) && !startsDash ((0 : Nat), w).2) = true := by
      simp [hne, hdash]
    rw [if_pos this, List.map_cons]
    simp only [if_pos rfl]
    apply bioAux_B_cons
    apply bioAux_allI ?_ _ (Or.inl rfl)
    intro u hu
    obtain ⟨p, hp, rfl⟩ := List.mem_map.mp hu
    have hp' := List.le_fst_of_mem_enumFrom (List.mem_of_mem_filter hp)
    have : p.1 ≠ 0 := by omega
    simp [this]

/-- Tokens and tags are appended in lockstep by the combined parser. -/
theorem parseRepAux_len : ∀ (fuel : Nat) (text : List Char),
    (parseRepAux fuel text).1.length = (parseRepAux fuel text).2.length := by
  intro fuel
  induction fuel with
  | zero => intro text; rfl
  | succ fuel ih =>
    intro text
    cases text with
    | nil => rfl
    | cons c rest =>
      rw [parseRepAux]
      cases hF : matchBrace 'F' (c :: rest) with
      | some v =>
        obtain ⟨region, rem⟩ := v
        simp [spanTags, ih rem]
      | none =>
        cases hD : matchBrace 'D' (c :: rest) with
        | some v =>
          obtain ⟨region, rem⟩ := v
          simp [spanTags, ih rem]
        | none =>
          cases hC : matchBrace 'C' (c :: rest) with
          | some v =>
            obtain ⟨region, rem⟩ := v
            simp [ih rem]
          | none =>
            cases hR : matchRepair (c :: rest) with
            | some v =>
              obtain ⟨r1, r2, rem⟩ := v
              simp [repairTokens, repairTags, keptTokens, ih rem]
            | none =>
              by_cases hw : isWordChar c
              · simp [hw, ih]
              · simp [hw, ih rest]

/-- Tokens and tags are appended in lockstep by the filler parser. -/
theorem parseFillerAux_len : ∀ (fuel : Nat) (text : List Char),
    (parseFillerAux fuel text).1.length = (parseFillerAux fuel text).2.length := by
  intro fuel
  induction fuel with
  | zero => intro text; rfl
  | succ fuel ih =>
    intro text
    cases text with
    | nil => rfl
    | cons c rest =>
      rw [parseFillerAux]
      cases hF : matchBrace 'F' (c :: rest) with
      | some v =>
        obtain ⟨region, rem⟩ := v
        simp [spanTags, ih rem]
      | none =>
        cases hD : matchBrace 'D' (c :: rest) with
        | some v =>
          obtain ⟨region, rem⟩ := v
          simp [ih rem]
        | none =>
          cases hC : matchBrace 'C' (c :: rest) with
          | some v =>
            obtain ⟨region, rem⟩ := v
            simp [ih rem]
          | none =>
            cases hR : matchRepair (c :: rest) with
            | some v =>
              obtain ⟨r1, r2, rem⟩ := v
              simp [keptTokens, ih rem]
            | none =>
              by_cases hw : isWordChar c
              · simp [hw, ih]
              · simp [hw, ih rest]

/-- C3: both parser variants return as many tokens as tags on every
input, malformed or unterminated bracket text included. -/
theorem C3_main (s : List Char) :
    (parseFillersOnly s).1.length = (parseFillersOnly s).2.length ∧
    (parseDisfluencySpeechTranscript s).1.length =
      (parseDisfluencySpeechTranscript s).2.length :=
  ⟨parseFillerAux_len _ _, parseRepAux_len _ _⟩

/-- Instrumentation of the combined parser's scan: true iff no repair
bracket's reparandum word list starts with a fragment word (a word
beginning with `-`). -/
def fragFreeAux : Nat → List Char → Bool
  | 0, _ => true
  | _ + 1, [] => true
  | fuel + 1, c :: rest =>
    match matchBrace 'F' (c :: rest) with
    | some (_, rem) => fragFreeAux fuel rem
    | none =>
    match matchBrace 'D' (c :: rest) with
    | some (_, rem) => fragFreeAux fuel rem
    | none =>
    match matchBrace 'C' (c :: rest) with
    | some (_, rem) => fragFreeAux fuel rem
    | none =>
    match matchRepair (c :: rest) with
    | some (r1, _, rem) =>
      (match wordsOf r1 with
       | [] => true
       | w :: _ => !startsDash w) && fragFreeAux fuel rem
    | none =>
      if isWordChar c then fragFreeAux fuel (rest.dropWhile isWordChar)
      else fragFreeAux fuel rest

/-- No repair bracket of the (markup-stripped) input starts its
reparandum with a fragment word. -/
def fragFree (s : List Char) : Bool :=
  fragFreeAux (removeMarkup s).length (removeMarkup s)

/-- Every chunk of the filler parser opens with `B-FILL` or consists of
`O` tags, so its output is BIO well-formed after any prefix. -/
theorem parseFillerAux_bio : ∀ (fuel : Nat) (text : List Char) (q : Option Tag),
    bioAux q (parseFillerAux fuel text).2 = true := by
  intro fuel
  induction fuel with
  | zero => intro text q; rfl
  | succ fuel ih =>
    intro text q
    cases text with
    | nil => rfl
    | cons c rest =>
      rw [parseFillerAux]
      cases hF : matchBrace 'F' (c :: rest) with
      | some v =>
        obtain ⟨region, rem⟩ := v
        exact bioAux_append (spanTags_chunk _ _ q) (ih rem)
      | none =>
        cases hD : matchBrace 'D' (c :: rest) with
        | some v =>
          obtain ⟨region, rem⟩ := v
          exact bioAux_append (mapO_chunk _ q) (ih rem)
        | none =>
          cases hC : matchBrace 'C' (c :: rest) with
          | some v =>
            obtain ⟨region, rem⟩ := v
            exact bioAux_append (mapO_chunk _ q) (ih rem)
          | none =>
            cases hR : matchRepair (c :: rest) with
            | some v =>
              obtain ⟨r1, r2, rem⟩ := v
              simp only []
              rw [List.append_assoc]
              exact bioAux_append (mapO_chunk _ q)
                (fun q' => bioAux_append (mapO_chunk _ q') (ih rem))
            | none =>
              by_cases hw : isWordChar c
              · simp only [if_pos hw]
                simp only [bioAux, bioStep, Bool.true_and]
                exact ih _ _
              · simp only [if_neg hw]
                exact ih rest q

/-- Under the fragment-free condition every chunk of the combined parser
opens with `B-REP` or consists of `O` tags, so its output is BIO
well-formed after any prefix. -/
theorem parseRepAux_bio : ∀ (fuel : Nat) (text : List Char),
    fragFreeAux fuel text = true →
    ∀ q : Option Tag, bioAux q (parseRepAux fuel text).2 = true := by
  intro fuel
  induction fuel with
  | zero => intro text _ q; rfl
  | succ fuel ih =>
    intro text hfree q
    cases text with
    | nil => rfl
    | cons c rest =>
      rw [fragFreeAux] at hfree
      rw [parseRepAux]
      cases hF : matchBrace 'F' (c :: rest) with
      | some v =>
        obtain ⟨region, rem⟩ := v
        rw [hF] at hfree
        simp only at hfree
        exact bioAux_append (spanTags_chunk _ _ q) (ih rem hfree)
      | none =>
        rw [hF] at hfree
        simp only at hfree
        cases hD : matchBrace 'D' (c :: rest) with
        | some v =>
          obtain ⟨region, rem⟩ := v
          rw [hD] at hfree
          simp only at hfree
          exact bioAux_append (spanTags_chunk _ _ q) (ih rem hfree)
        | none =>
          rw [hD] at hfree
          simp only at hfree
          cases hC : matchBrace 'C' (c :: rest) with
          | some v =>
            obtain ⟨region, rem⟩ := v
            rw [hC] at hfree
            simp only at hfree
            exact bioAux_append (mapO_chunk _ q) (ih rem hfree)
          | none =>
            rw [hC] at hfree
            simp only at hfree
            cases hR : matchRepair (c :: rest) with
            | some v =>
              obtain ⟨r1, r2, rem⟩ := v
              rw [hR] at hfree
              simp only [Bool.and_eq_true] at hfree
              obtain ⟨hhead, hrest⟩ := hfree
              simp only []
              rw [List.append_assoc]
              refine bioAux_append (repairTags_chunk ?_ q)
                (fun q' => bioAux_append (mapO_chunk _ q') (ih rem hrest))
              cases hws : wordsOf r1 with
              | nil => exact Or.inl rfl
              | cons w t =>
                refine Or.inr ⟨w, t, rfl, ?_, ?_⟩
                · have := splitWs_goodWord (r1.filter (fun c => c != ','))
                    w (by rw [← wordsOf, hws]; exact List.mem_cons_self w t)
                  exact this.1
                · rw [hws] at hhead
                  simpa using hhead
            | none =>
              rw [hR] at hfree
              simp only at hfree
              by_cases hw : isWordChar c
              · simp only [if_pos hw]
                rw [if_pos hw] at hfree
                simp only [bioAux, bioStep, Bool.true_and]
                exact ih _ hfree _
              · simp only [if_neg hw]
                rw [if_neg hw] at hfree
                exact ih rest hfree q

/-- C1: the claim as stated is false.  On a repair bracket whose
reparandum begins with a fragment word (`[ -t word + fix ]`) the
enumerate-based tagging skips the `j = 0` word but still tags the next
reparandum word `I-REP`, producing a span that opens with `I-REP`. -/
theorem C1_counterexample :
    bioWF (parseDisfluencySpeechTranscript "[ -t word + fix ]".data).2 = false ∧
    (parseDisfluencySpeechTranscript "[ -t word + fix ]".data).2 =
      [Tag.I "REP", Tag.O] := by
  refine ⟨by decide, by decide⟩

/-- C1 (amended): every tag sequence of `parse_fillers_only` is BIO
well-formed; a tag sequence of `parse_disfluency_speech_transcript` is
BIO well-formed whenever no repair bracket's reparandum begins with a
fragment word starting with `-` (when one does, the emitted span can
open with `I-REP`). -/
theorem C1_main :
    (∀ s : List Char, bioWF (parseFillersOnly s).2 = true) ∧
    (∀ s : List Char, fragFree s = true →
      bioWF (parseDisfluencySpeechTranscript s).2 = true) := by
  constructor
  · intro s
    exact parseFillerAux_bio (removeMarkup s).length (removeMarkup s) none
  · intro s h
    exact parseRepAux_bio (removeMarkup s).length (removeMarkup s) h none

/-- C1 witness: a filler annotation and a fragment-free repair bracket
both yield BIO well-formed tag sequences. -/
theorem C1_witness :
    bioWF (parseFillersOnly "i {F uh, um} think".data).2 = true ∧
    fragFree "[ the store + the mall ]".data = true ∧
    bioWF (parseDisfluencySpeechTranscript "[ the store + the mall ]".data).2 = true := by
  refine ⟨C1_main.1 _, by decide, C1_main.2 _ (by decide)⟩

end WV
